import Mathlib

/-!
Verification of the `terminated` crate: a NUL-terminated UTF8 string view.

Strings are modelled at the byte level as `List Nat` (each element one byte
of the UTF8 encoding, as produced by the bytes iterator of a Rust str).  A
panic of the Rust code is modelled as `none` in an `Option`-valued result.
-/

deriving instance DecidableEq for Except

namespace Terminated

/-- `NulError` from src/src/lib.rs (lines 42-47): either an interior NUL at a
byte position, or no NUL terminator at all. -/
inductive NulError where
  | interiorNul : Nat → NulError
  | notNulTerminated : NulError
deriving DecidableEq, Repr

/-- `NulTerminatedStr` from src/src/lib.rs (line 78): a transparent wrapper
over a `str`; the `mem::transmute` / pointer cast constructors preserve the
backing bytes, so the model carries exactly those bytes. -/
structure NulTerminatedStr where
  bytes : List Nat
deriving DecidableEq, Repr

/-- `s.bytes().position(|b| b == 0)` from src/src/lib.rs line 97: index of the
first zero byte, if any. -/
def nulPos : List Nat → Option Nat
  | [] => none
  | b :: rest => if b = 0 then some 0 else (nulPos rest).map (· + 1)

/-- `NulTerminatedStr::from_str_with_nul` (src/src/lib.rs lines 96-106).
If no NUL byte exists the result is `NulError::NotNulTerminated`; otherwise the
first NUL position `i` is compared with `s.len() - 1`.  The `usize` subtraction
`s.len() - 1` would panic (debug overflow / out-of-range wrap) on an empty
string, modelled by `none`; that branch is only reached when a NUL was found. -/
def fromStrWithNul (s : List Nat) : Option (Except NulError NulTerminatedStr) :=
  match nulPos s with
  | none => some (Except.error NulError.notNulTerminated)
  | some i =>
      if s.length = 0 then none
      else some (if i = s.length - 1 then Except.ok ⟨s⟩
                 else Except.error (NulError.interiorNul i))

/-- `NulTerminatedStr::from_str_with_nul_unchecked` (src/src/lib.rs lines
108-110): a pointer cast, no validation; the bytes are kept as given. -/
def fromStrWithNulUnchecked (s : List Nat) : NulTerminatedStr := ⟨s⟩

/-- `NulTerminatedStr::as_str_with_nul` (src/src/lib.rs lines 113-115):
returns `&self.0`, the full backing bytes including the terminator. -/
def asStrWithNul (v : NulTerminatedStr) : List Nat := v.bytes

/-- The Rust str method is_char_boundary at index i: true at 0; at an in-range index, true
iff the byte there is not a UTF8 continuation byte (`(b as i8) >= -64`, i.e.
`b < 0x80 || b >= 0xC0`); past the end, true only at exactly `len`. -/
def isCharBoundary (s : List Nat) (i : Nat) : Bool :=
  if i = 0 then true
  else
    match s[i]? with
    | some b => decide (b < 0x80) || decide (0xC0 ≤ b)
    | none => decide (i = s.length)

/-- `impl Deref for NulTerminatedStr` (src/src/lib.rs lines 118-124):
`&self.0[..self.0.len() - 1]`.  On an empty backing string the `usize`
subtraction wraps and the slice index is out of range, a panic (`none`);
the slice operation also panics when `len - 1` is not a char boundary. -/
def derefNts (v : NulTerminatedStr) : Option (List Nat) :=
  if v.bytes.length = 0 then none
  else if isCharBoundary v.bytes (v.bytes.length - 1)
  then some (v.bytes.take (v.bytes.length - 1))
  else none

/-- UTF8 continuation byte test: `0x80 ≤ b < 0xC0`. -/
def isCont (b : Nat) : Bool := decide (0x80 ≤ b) && decide (b < 0xC0)

/-- UTF8 well-formedness of a byte sequence (RFC 3629: no overlong forms, no
surrogates, no code points above U+10FFFF), checked one encoded character at a
time.  The first argument is fuel, bounded below by the list length; each step
consumes at least one byte. -/
def utf8ValidAux : Nat → List Nat → Bool
  | _, [] => true
  | 0, _ :: _ => false
  | fuel + 1, b :: rest =>
    if b < 0x80 then utf8ValidAux fuel rest
    else if b < 0xC2 then false
    else if b < 0xE0 then
      match rest with
      | b1 :: rest1 => isCont b1 && utf8ValidAux fuel rest1
      | [] => false
    else if b < 0xF0 then
      match rest with
      | b1 :: b2 :: rest2 =>
        (if b = 0xE0 then decide (0xA0 ≤ b1) && decide (b1 < 0xC0)
         else if b = 0xED then decide (0x80 ≤ b1) && decide (b1 < 0xA0)
         else isCont b1) && isCont b2 && utf8ValidAux fuel rest2
      | _ => false
    else if b < 0xF5 then
      match rest with
      | b1 :: b2 :: b3 :: rest3 =>
        (if b = 0xF0 then decide (0x90 ≤ b1) && decide (b1 < 0xC0)
         else if b = 0xF4 then decide (0x80 ≤ b1) && decide (b1 < 0x90)
         else isCont b1) && isCont b2 && isCont b3 && utf8ValidAux fuel rest3
      | _ => false
    else false

/-- A byte sequence is valid UTF8 (the invariant carried by the Rust str type). -/
def utf8Valid (s : List Nat) : Bool := utf8ValidAux s.length s

/-- The build-time expansion step of the stable ntstr path (src/src/lib.rs
lines 163-170): the concat of the literal with a NUL appends one NUL byte to
the literal.  This step is a textual rewrite with no failure channel — the
expansion always produces a well-formed constant. -/
def ntstrExpand (lit : List Nat) : List Nat := lit ++ [0]

/-- Runtime evaluation of the stable ntstr expansion (src/src/lib.rs lines
163-170): from_str_with_nul applied to the literal with one appended NUL,
with the error arm mapped to a runtime panic (`none`). -/
def ntstrStable (lit : List Nat) : Option NulTerminatedStr :=
  match fromStrWithNul (ntstrExpand lit) with
  | some (Except.ok v) => some v
  | _ => none

/-- The build-time helper ntstr (src/macros/src/macros.rs lines 4-21),
restricted to the string-literal path the claims concern: during expansion it
panics — failing the build — when the literal contains a NUL character (at
the byte level, a zero byte), and otherwise appends one NUL to the value.
`none` models the build failure. -/
def ntstrProc (lit : List Nat) : Option (List Nat) :=
  if 0 ∈ lit then none else some (lit ++ [0])

/-- The unstable ntstr path (src/src/lib.rs lines 175-186): the build-time
helper output is wrapped with from_str_with_nul_unchecked, no runtime
check. -/
def ntstrUnstable (lit : List Nat) : Option NulTerminatedStr :=
  (ntstrProc lit).map fromStrWithNulUnchecked

/-! ### Helper lemmas -/

theorem nulPos_eq_none (s : List Nat) (h : ∀ b ∈ s, b ≠ 0) : nulPos s = none := by
  induction s with
  | nil => rfl
  | cons b rest ih =>
    have hb : b ≠ 0 := h b (List.mem_cons_self b rest)
    simp [nulPos, hb, ih (fun x hx => h x (List.mem_cons_of_mem _ hx))]

theorem nulPos_eq_some_of (s : List Nat) (i : Nat) (h0 : s[i]? = some 0)
    (h1 : ∀ j, j < i → s[j]? ≠ some 0) : nulPos s = some i := by
  induction s generalizing i with
  | nil => simp at h0
  | cons b rest ih =>
    cases i with
    | zero =>
      simp at h0
      simp [nulPos, h0]
    | succ i =>
      have hb : ¬b = 0 := by
        have := h1 0 (Nat.succ_pos i)
        simpa using this
      have h0r : rest[i]? = some 0 := by simpa using h0
      have h1r : ∀ j, j < i → rest[j]? ≠ some 0 := by
        intro j hj
        have := h1 (j + 1) (Nat.succ_lt_succ hj)
        simpa using this
      simp [nulPos, hb, ih i h0r h1r]

theorem nulPos_spec (s : List Nat) (i : Nat) (h : nulPos s = some i) :
    s[i]? = some 0 ∧ ∀ j, j < i → s[j]? ≠ some 0 := by
  induction s generalizing i with
  | nil => simp [nulPos] at h
  | cons b rest ih =>
    by_cases hb : b = 0
    · simp [nulPos, hb] at h
      subst h
      simp [hb]
    · simp only [nulPos, if_neg hb, Option.map_eq_some'] at h
      obtain ⟨i', hi', rfl⟩ := h
      obtain ⟨h0r, h1r⟩ := ih i' hi'
      refine ⟨by simpa using h0r, ?_⟩
      intro j hj
      cases j with
      | zero => simpa using hb
      | succ j =>
        have := h1r j (Nat.lt_of_succ_lt_succ hj)
        simpa using this

theorem nulPos_lt_length (s : List Nat) (i : Nat) (h : nulPos s = some i) :
    i < s.length := by
  have h0 := (nulPos_spec s i h).1
  by_contra hlt
  rw [List.getElem?_eq_none (Nat.le_of_not_lt hlt)] at h0
  exact Option.noConfusion h0

theorem nulPos_append (l t : List Nat) (i : Nat) (h : nulPos l = some i) :
    nulPos (l ++ t) = some i := by
  induction l generalizing i with
  | nil => simp [nulPos] at h
  | cons b rest ih =>
    by_cases hb : b = 0
    · simp [nulPos, hb] at h ⊢
      exact h
    · simp only [nulPos, if_neg hb, Option.map_eq_some'] at h
      obtain ⟨i', hi', rfl⟩ := h
      simp only [List.cons_append, nulPos, if_neg hb, Option.map_eq_some']
      exact ⟨i', ih i' hi', rfl⟩

theorem nulPos_isSome_of_mem (l : List Nat) (h : 0 ∈ l) :
    (nulPos l).isSome = true := by
  induction l with
  | nil => simp at h
  | cons b rest ih =>
    by_cases hb : b = 0
    · simp [nulPos, hb]
    · have hr : 0 ∈ rest := by
        rcases List.mem_cons.mp h with h1 | h1
        · exact absurd h1.symm hb
        · exact h1
      obtain ⟨i, hi⟩ := Option.isSome_iff_exists.mp (ih hr)
      simp [nulPos, hb, hi]

theorem fromStrWithNul_ok_of (s : List Nat) (h1 : 1 ≤ s.length)
    (h2 : nulPos s = some (s.length - 1)) :
    fromStrWithNul s = some (Except.ok ⟨s⟩) := by
  have hne : ¬s.length = 0 := by omega
  unfold fromStrWithNul
  rw [h2]
  simp [hne]

theorem fromStrWithNul_ok_inv (s : List Nat) (v : NulTerminatedStr)
    (h : fromStrWithNul s = some (Except.ok v)) :
    v = ⟨s⟩ ∧ 1 ≤ s.length ∧ nulPos s = some (s.length - 1) := by
  unfold fromStrWithNul at h
  cases hn : nulPos s with
  | none =>
    rw [hn] at h
    simp at h
  | some i =>
    rw [hn] at h
    by_cases hl : s.length = 0
    · simp [hl] at h
    · by_cases hi : i = s.length - 1
      · simp [hl, hi] at h
        subst hi
        exact ⟨h.symm, by omega, rfl⟩
      · simp [hl, hi] at h

theorem isCharBoundary_last_of_nul (s : List Nat) (h : s[s.length - 1]? = some 0) :
    isCharBoundary s (s.length - 1) = true := by
  unfold isCharBoundary
  by_cases h0 : s.length - 1 = 0
  · simp [h0]
  · rw [if_neg h0, h]
    rfl

theorem derefNts_eq_dropLast (s : List Nat) (h1 : 1 ≤ s.length)
    (h : s[s.length - 1]? = some 0) :
    derefNts ⟨s⟩ = some s.dropLast := by
  have hne : ¬s.length = 0 := by omega
  simp [derefNts, hne, isCharBoundary_last_of_nul s h, List.dropLast_eq_take]

theorem dropLast_append_nul (s : List Nat) (h : s[s.length - 1]? = some 0) :
    s.dropLast ++ [0] = s := by
  refine List.dropLast_append_getLast? 0 ?_
  rw [List.getLast?_eq_getElem?]
  exact h

/-! ### Claim theorems -/

/-- Claim C1: for every UTF8 string whose only NUL byte is at the last index,
from_str_with_nul succeeds; as_str_with_nul of the result equals the input
unchanged, and the Deref projection equals the input with its last byte
removed. -/
theorem from_str_with_nul_trailing_nul_ok (s : List Nat)
    (hu : utf8Valid s = true) (hlen : 1 ≤ s.length)
    (hlast : s[s.length - 1]? = some 0)
    (hint : ∀ j, j < s.length - 1 → s[j]? ≠ some 0) :
    fromStrWithNul s = some (Except.ok ⟨s⟩) ∧
    asStrWithNul ⟨s⟩ = s ∧
    derefNts ⟨s⟩ = some s.dropLast := by
  have hp : nulPos s = some (s.length - 1) := nulPos_eq_some_of s _ hlast hint
  exact ⟨fromStrWithNul_ok_of s hlen hp, rfl, derefNts_eq_dropLast s hlen hlast⟩

/-- Witness for C1 at the two-byte input 97, 0. -/
theorem from_str_with_nul_trailing_nul_ok_witness :
    fromStrWithNul [97, 0] = some (Except.ok ⟨[97, 0]⟩) ∧
    asStrWithNul ⟨[97, 0]⟩ = [97, 0] ∧
    derefNts ⟨[97, 0]⟩ = some ([97, 0] : List Nat).dropLast :=
  from_str_with_nul_trailing_nul_ok [97, 0] (by decide) (by decide) (by decide)
    (by
      intro j hj
      have hj1 : j < 1 := by simpa using hj
      interval_cases j
      decide)

/-- Claim C2: for every UTF8 string whose first NUL is at position i strictly
before the last index, from_str_with_nul fails with InteriorNul i, even when
another NUL also occupies the last index. -/
theorem from_str_with_nul_interior_nul (s : List Nat) (i : Nat)
    (hu : utf8Valid s = true)
    (h0 : s[i]? = some 0)
    (hfirst : ∀ j, j < i → s[j]? ≠ some 0)
    (hlt : i < s.length - 1) :
    fromStrWithNul s = some (Except.error (NulError.interiorNul i)) := by
  have hp : nulPos s = some i := nulPos_eq_some_of s i h0 hfirst
  have hlen : ¬s.length = 0 := by
    have := nulPos_lt_length s i hp
    omega
  have hi : ¬i = s.length - 1 := by omega
  unfold fromStrWithNul
  rw [hp]
  simp [hlen, hi]

/-- Witness for C2 at the bytes of the scenario with NUL at positions 2 and 4:
the first occurrence wins. -/
theorem from_str_with_nul_interior_nul_witness :
    fromStrWithNul [102, 111, 0, 111, 0] =
      some (Except.error (NulError.interiorNul 2)) :=
  from_str_with_nul_interior_nul [102, 111, 0, 111, 0] 2 (by decide) (by decide)
    (by intro j hj; interval_cases j <;> decide) (by decide)

/-- Claim C3: for every UTF8 string containing no NUL byte, from_str_with_nul
fails with NotNulTerminated. -/
theorem from_str_with_nul_no_nul (s : List Nat)
    (hu : utf8Valid s = true) (h : ∀ b ∈ s, b ≠ 0) :
    fromStrWithNul s = some (Except.error NulError.notNulTerminated) := by
  unfold fromStrWithNul
  rw [nulPos_eq_none s h]

/-- Witness for C3 at the bytes of a three-letter word with no NUL. -/
theorem from_str_with_nul_no_nul_witness :
    fromStrWithNul [102, 111, 111] =
      some (Except.error NulError.notNulTerminated) :=
  from_str_with_nul_no_nul [102, 111, 111] (by decide) (by decide)

/-- Claim C4: on the empty input, from_str_with_nul fails with
NotNulTerminated (in particular never with InteriorNul). -/
theorem from_str_with_nul_empty :
    fromStrWithNul [] = some (Except.error NulError.notNulTerminated) := rfl

/-- Claim C5: round-trip — for every value successfully produced by
from_str_with_nul, appending one NUL byte to its Deref projection and
re-validating succeeds and yields a value with the same backing bytes. -/
theorem from_str_with_nul_round_trip (s : List Nat) (v : NulTerminatedStr)
    (t : List Nat)
    (hu : utf8Valid s = true)
    (hv : fromStrWithNul s = some (Except.ok v))
    (ht : derefNts v = some t) :
    fromStrWithNul (t ++ [0]) = some (Except.ok ⟨t ++ [0]⟩) ∧
    asStrWithNul ⟨t ++ [0]⟩ = asStrWithNul v := by
  obtain ⟨rfl, hlen, hp⟩ := fromStrWithNul_ok_inv s v hv
  have hlast : s[s.length - 1]? = some 0 := (nulPos_spec s _ hp).1
  have htd : t = s.dropLast := by
    have hd := derefNts_eq_dropLast s hlen hlast
    rw [ht] at hd
    exact Option.some.inj hd
  have hts : t ++ [0] = s := by
    rw [htd]
    exact dropLast_append_nul s hlast
  rw [hts]
  exact ⟨fromStrWithNul_ok_of s hlen hp, rfl⟩

/-- Witness for C5 at the two-byte input 97, 0 with projection 97. -/
theorem from_str_with_nul_round_trip_witness :
    fromStrWithNul ([97] ++ [0]) = some (Except.ok ⟨[97] ++ [0]⟩) ∧
    asStrWithNul ⟨[97] ++ [0]⟩ = asStrWithNul ⟨[97, 0]⟩ :=
  from_str_with_nul_round_trip [97, 0] ⟨[97, 0]⟩ [97] (by decide) (by decide)
    (by decide)

/-- Counterexample for C6 as stated: for the literal with bytes 97, 0, 98,
the default (stable) ntstr_impl! path expands at build time to the
well-formed constant with one appended NUL — the build does not fail — and
evaluating that expansion is a runtime panic, contradicting the claim that
rejection is a compilation failure and not a runtime panic. -/
theorem ntstr_stable_embedded_nul_cex :
    ntstrExpand [97, 0, 98] = [97, 0, 98, 0] ∧ ntstrStable [97, 0, 98] = none := by
  constructor
  · rfl
  · rfl

/-- Claim C6 (amended): a literal with an embedded NUL never yields a value.
On the unstable path the proc-macro rejects it during expansion, failing the
build; on the default stable path the expansion compiles and the embedded NUL
is caught by from_str_with_nul at runtime, a runtime panic. -/
theorem ntstr_embedded_nul_never_succeeds (lit : List Nat) (h : 0 ∈ lit) :
    ntstrProc lit = none ∧ ntstrStable lit = none := by
  constructor
  · simp [ntstrProc, h]
  · obtain ⟨i, hi⟩ := Option.isSome_iff_exists.mp (nulPos_isSome_of_mem lit h)
    have hlt : i < lit.length := nulPos_lt_length lit i hi
    have hp : nulPos (lit ++ [0]) = some i := nulPos_append lit [0] i hi
    have hlen : ¬(lit ++ [0]).length = 0 := by simp
    have happ : (lit ++ [0]).length = lit.length + 1 := by simp
    have hne : ¬i = (lit ++ [0]).length - 1 := by omega
    have hne2 : ¬i = lit.length := by omega
    have herr : fromStrWithNul (lit ++ [0]) =
        some (Except.error (NulError.interiorNul i)) := by
      unfold fromStrWithNul
      rw [hp]
      simp [hlen, hne, hne2]
    simp [ntstrStable, ntstrExpand, herr]

/-- Witness for the amended C6 at the literal with bytes 97, 0, 98. -/
theorem ntstr_embedded_nul_never_succeeds_witness :
    ntstrProc [97, 0, 98] = none ∧ ntstrStable [97, 0, 98] = none :=
  ntstr_embedded_nul_never_succeeds [97, 0, 98] (by decide)

/-- Claim C7: for the literal with bytes 97, 98, 99, the produced value has
terminated view equal to the four bytes 97, 98, 99, 0 and text projection
equal to the three bytes 97, 98, 99, on both expansion paths. -/
theorem ntstr_abc_value :
    ntstrStable [97, 98, 99] = some ⟨[97, 98, 99, 0]⟩ ∧
    ntstrUnstable [97, 98, 99] = some ⟨[97, 98, 99, 0]⟩ ∧
    asStrWithNul ⟨[97, 98, 99, 0]⟩ = [97, 98, 99, 0] ∧
    derefNts ⟨[97, 98, 99, 0]⟩ = some [97, 98, 99] ∧
    ([97, 98, 99] : List Nat).length = 3 := by
  refine ⟨rfl, rfl, rfl, ?_, rfl⟩
  decide

/-- Claim C8: as_str_with_nul always returns the full backing bytes
unmodified, for views produced by the unchecked constructor and by the
checked constructor alike. -/
theorem as_str_with_nul_id (s : List Nat) :
    asStrWithNul (fromStrWithNulUnchecked s) = s ∧
    ∀ v, fromStrWithNul s = some (Except.ok v) → asStrWithNul v = s := by
  refine ⟨rfl, ?_⟩
  intro v hv
  obtain ⟨rfl, -, -⟩ := fromStrWithNul_ok_inv s v hv
  rfl

/-- Witness for C8 at the two-byte input 97, 0. -/
theorem as_str_with_nul_id_witness :
    asStrWithNul (fromStrWithNulUnchecked [97, 0]) = [97, 0] ∧
    asStrWithNul ⟨[97, 0]⟩ = [97, 0] :=
  ⟨(as_str_with_nul_id [97, 0]).1,
   (as_str_with_nul_id [97, 0]).2 ⟨[97, 0]⟩ (by decide)⟩

/-- Claim C9: from_str_with_nul is total — it never panics.  The subtraction
in the comparison with the last index is reached only when a NUL was found,
which forces a nonempty input, so the usize subtraction never underflows. -/
theorem from_str_with_nul_total (s : List Nat) :
    (fromStrWithNul s).isSome = true := by
  unfold fromStrWithNul
  cases hn : nulPos s with
  | none => rfl
  | some i =>
    have hlt : i < s.length := nulPos_lt_length s i hn
    have hlen : ¬s.length = 0 := by omega
    simp [hlen]

/-- Claim C10: every view produced by from_str_with_nul satisfies the
invariant — nonempty, final byte NUL, no earlier NUL — and its Deref slice is
in bounds and ends on a char boundary, so the projection never panics. -/
theorem from_str_with_nul_invariant (s : List Nat) (v : NulTerminatedStr)
    (h : fromStrWithNul s = some (Except.ok v)) :
    1 ≤ v.bytes.length ∧
    v.bytes[v.bytes.length - 1]? = some 0 ∧
    (∀ j, j < v.bytes.length - 1 → v.bytes[j]? ≠ some 0) ∧
    isCharBoundary v.bytes (v.bytes.length - 1) = true ∧
    derefNts v = some (v.bytes.take (v.bytes.length - 1)) := by
  obtain ⟨rfl, hlen, hp⟩ := fromStrWithNul_ok_inv s v h
  obtain ⟨h0, h1⟩ := nulPos_spec s _ hp
  refine ⟨hlen, h0, h1, isCharBoundary_last_of_nul s h0, ?_⟩
  rw [derefNts_eq_dropLast s hlen h0, List.dropLast_eq_take]

/-- Witness for C10 at the two-byte input 97, 0. -/
theorem from_str_with_nul_invariant_witness :
    1 ≤ (NulTerminatedStr.mk [97, 0]).bytes.length ∧
    (NulTerminatedStr.mk [97, 0]).bytes[(NulTerminatedStr.mk [97, 0]).bytes.length - 1]? = some 0 ∧
    isCharBoundary (NulTerminatedStr.mk [97, 0]).bytes
      ((NulTerminatedStr.mk [97, 0]).bytes.length - 1) = true ∧
    derefNts (NulTerminatedStr.mk [97, 0]) =
      some ((NulTerminatedStr.mk [97, 0]).bytes.take
        ((NulTerminatedStr.mk [97, 0]).bytes.length - 1)) := by
  have h := from_str_with_nul_invariant [97, 0] ⟨[97, 0]⟩ (by decide)
  exact ⟨h.1, h.2.1, h.2.2.2.1, h.2.2.2.2⟩

end Terminated
